import Mathlib

/-
Verification of the Pixelog core against its specification.

The Go sources are shallowly embedded: byte buffers become `List Nat`
(entries below 256), fallible operations return `Except`/`Option`, and the
external cryptographic primitives (PBKDF2, AES-256-GCM) are idealized as
collision-free constructions, since they live in the Go standard library and
not in this repository.  Every definition below names the Go function it
embeds.
-/

namespace Pixelog

/-- Go byte slices are modelled as lists of naturals; a well-formed buffer has
every entry below 256. -/
abbrev Bytes : Type := List Nat

/-- All entries of a buffer are genuine byte values. -/
def BytesLT (l : Bytes) : Prop := ∀ b ∈ l, b < 256

instance (l : Bytes) : Decidable (BytesLT l) := by
  unfold BytesLT; infer_instance

/-! ## Idealized cryptographic primitives

`src/crypto/encryption.go` calls PBKDF2-HMAC-SHA-256 and AES-256-GCM from the
Go standard library.  Those primitives are external to the repository, so they
are modelled ideally: the derived key is the exact (password, salt) pair, and
GCM is an authenticated scheme whose tag is a perfect MAC.  The model keeps the
exact buffer layout and lengths of the real scheme (12-byte nonce, 16-byte
tag), which is what the specification claims are about. -/

/-- Injective encoding of a character list into a natural number, used only
inside the idealized MAC. -/
def encCharsP : List Char → Nat
  | [] => 0
  | c :: l => Nat.pair c.toNat (encCharsP l) + 1

/-- Digit encoding of a byte list into a natural number (base 257,
little-endian, entries reduced mod 256), used only inside the idealized MAC. -/
def encBytes : Bytes → Nat
  | [] => 0
  | a :: l => (a % 256 + 1) + 257 * encBytes l

theorem encCharsP_inj : Function.Injective encCharsP := by
  intro l₁ l₂ h
  induction l₁ generalizing l₂ with
  | nil =>
    cases l₂ with
    | nil => rfl
    | cons c l => simp [encCharsP] at h
  | cons c l ih =>
    cases l₂ with
    | nil => simp [encCharsP] at h
    | cons c₂ t₂ =>
      simp only [encCharsP, Nat.add_right_cancel_iff] at h
      obtain ⟨h1, h2⟩ := Nat.pair_eq_pair.mp h
      have hc : c = c₂ := by
        have := congrArg Char.ofNat h1
        rwa [Char.ofNat_toNat, Char.ofNat_toNat] at this
      rw [hc, ih h2]

theorem string_toList_inj : Function.Injective String.toList := by
  intro s t h
  cases s; cases t
  exact congrArg String.mk (by simpa [String.toList] using h)

/-- Error kinds of the encryption service (`src/crypto/encryption.go`):
`emptyPassword` is "password required…", `shortCiphertext` is "encrypted data
too short", `authFailed` is "failed to decrypt data" (GCM tag rejection). -/
inductive CryptoErr where
  | emptyPassword
  | shortCiphertext
  | authFailed
  deriving DecidableEq

/-- Model of `pbkdf2.Key([]byte(password), salt, 100000, 32, sha256.New)`:
the ideal KDF is injective in the password, so the key is modelled as the
(password, salt) pair itself. -/
def pbkdf2Key (password : String) (salt : Bytes) : String × Bytes :=
  (password, salt)

/-- The idealized GCM authentication value over key, nonce and plaintext. -/
def macNat (key : String × Bytes) (nonce data : Bytes) : Nat :=
  Nat.pair (encCharsP key.1.toList)
    (Nat.pair (encBytes key.2) (Nat.pair (encBytes nonce) (encBytes data)))

/-- The 16-byte authentication tag of the idealized GCM model (the MAC value in
the first slot, padded to the real tag width of 16). -/
def gcmTag (key : String × Bytes) (nonce data : Bytes) : Bytes :=
  macNat key nonce data :: List.replicate 15 0

/-- Model of `gcm.Seal(nil, nonce, data, nil)`: ciphertext of the same length
as the plaintext followed by the 16-byte tag. -/
def gcmSeal (key : String × Bytes) (nonce data : Bytes) : Bytes :=
  data ++ gcmTag key nonce data

/-- Model of `gcm.Open(nil, nonce, ciphertext, nil)`: rejects inputs shorter
than the tag, otherwise splits off the 16-byte tag and verifies it. -/
def gcmOpen (key : String × Bytes) (nonce ct : Bytes) : Option Bytes :=
  if ct.length < 16 then none
  else
    let data := ct.take (ct.length - 16)
    if ct.drop (ct.length - 16) = gcmTag key nonce data then some data else none

theorem length_gcmTag (key : String × Bytes) (nonce data : Bytes) :
    (gcmTag key nonce data).length = 16 := by
  simp [gcmTag]

theorem length_gcmSeal (key : String × Bytes) (nonce data : Bytes) :
    (gcmSeal key nonce data).length = data.length + 16 := by
  simp [gcmSeal, length_gcmTag]

theorem gcmOpen_gcmSeal (key : String × Bytes) (nonce data : Bytes) :
    gcmOpen key nonce (gcmSeal key nonce data) = some data := by
  have hlen : (gcmSeal key nonce data).length = data.length + 16 :=
    length_gcmSeal key nonce data
  unfold gcmOpen
  rw [hlen]
  rw [if_neg (by omega)]
  have htake : (gcmSeal key nonce data).take (data.length + 16 - 16) = data := by
    simp only [Nat.add_sub_cancel]
    exact List.take_left' rfl
  have hdrop : (gcmSeal key nonce data).drop (data.length + 16 - 16) =
      gcmTag key nonce data := by
    simp only [Nat.add_sub_cancel]
    exact List.drop_left' rfl
  simp only [Nat.add_sub_cancel] at htake hdrop ⊢
  rw [htake, hdrop, if_pos rfl]

theorem gcmOpen_wrong_password (p p' : String) (salt nonce data : Bytes)
    (hne : p' ≠ p) :
    gcmOpen (pbkdf2Key p' salt) nonce (gcmSeal (pbkdf2Key p salt) nonce data)
      = none := by
  have hlen : (gcmSeal (pbkdf2Key p salt) nonce data).length = data.length + 16 :=
    length_gcmSeal _ nonce data
  unfold gcmOpen
  rw [hlen]
  rw [if_neg (by omega)]
  have htake : (gcmSeal (pbkdf2Key p salt) nonce data).take (data.length + 16 - 16)
      = data := by
    simp only [Nat.add_sub_cancel]
    exact List.take_left' rfl
  have hdrop : (gcmSeal (pbkdf2Key p salt) nonce data).drop (data.length + 16 - 16)
      = gcmTag (pbkdf2Key p salt) nonce data := by
    simp only [Nat.add_sub_cancel]
    exact List.drop_left' rfl
  rw [htake, hdrop]
  rw [if_neg]
  intro hEq
  have hmac : macNat (pbkdf2Key p salt) nonce data
      = macNat (pbkdf2Key p' salt) nonce data := by
    simpa [gcmTag] using hEq
  have hpw : encCharsP p.toList = encCharsP p'.toList :=
    (Nat.pair_eq_pair.mp hmac).1
  exact hne (string_toList_inj (encCharsP_inj hpw)).symm

/-- Embedding of `EncryptionService.EncryptData`
(`src/crypto/encryption.go:24-70`).  The random salt and nonce drawn inside
the Go function are passed as explicit parameters (the RNG draws). -/
def EncryptData (enabled : Bool) (password : String) (salt nonce data : Bytes) :
    Except CryptoErr Bytes :=
  if !enabled then .ok data
  else if password = "" then .error .emptyPassword
  else .ok (salt ++ (nonce ++ gcmSeal (pbkdf2Key password salt) nonce data))

/-- Embedding of `EncryptionService.DecryptData`
(`src/crypto/encryption.go:73-113`): disabled service passes the buffer
through; then the empty-password check; then the `len < 44` short-buffer
check; then salt `[0,32)`, nonce `[32,44)`, ciphertext `[44,…)` are split off
and GCM opens the ciphertext. -/
def DecryptData (enabled : Bool) (password : String) (encrypted : Bytes) :
    Except CryptoErr Bytes :=
  if !enabled then .ok encrypted
  else if password = "" then .error .emptyPassword
  else if encrypted.length < 44 then .error .shortCiphertext
  else
    match gcmOpen (pbkdf2Key password (encrypted.take 32))
        ((encrypted.drop 32).take 12) (encrypted.drop 44) with
    | some pt => .ok pt
    | none => .error .authFailed

theorem encryptData_ok (p : String) (salt nonce data : Bytes) (hp : p ≠ "") :
    EncryptData true p salt nonce data
      = .ok (salt ++ (nonce ++ gcmSeal (pbkdf2Key p salt) nonce data)) := by
  simp [EncryptData, hp]

theorem split_encrypted (salt nonce rest : Bytes)
    (hs : salt.length = 32) (hn : nonce.length = 12) :
    (salt ++ (nonce ++ rest)).take 32 = salt ∧
    ((salt ++ (nonce ++ rest)).drop 32).take 12 = nonce ∧
    (salt ++ (nonce ++ rest)).drop 44 = rest := by
  refine ⟨List.take_left' hs, ?_, ?_⟩
  · rw [List.drop_left' hs]
    exact List.take_left' hn
  · rw [show salt ++ (nonce ++ rest) = (salt ++ nonce) ++ rest by
      rw [List.append_assoc]]
    exact List.drop_left' (by simp [hs, hn])

theorem length_encrypted (salt nonce rest : Bytes)
    (hs : salt.length = 32) (hn : nonce.length = 12) :
    (salt ++ (nonce ++ rest)).length = rest.length + 44 := by
  simp [hs, hn]; omega

theorem decryptData_of_encryptData (p p' : String) (salt nonce data : Bytes)
    (hp' : p' ≠ "") (hs : salt.length = 32) (hn : nonce.length = 12) :
    DecryptData true p' (salt ++ (nonce ++ gcmSeal (pbkdf2Key p salt) nonce data))
      = match gcmOpen (pbkdf2Key p' salt) nonce
          (gcmSeal (pbkdf2Key p salt) nonce data) with
        | some pt => .ok pt
        | none => .error .authFailed := by
  have hsplit := split_encrypted salt nonce
    (gcmSeal (pbkdf2Key p salt) nonce data) hs hn
  have hlen : (salt ++ (nonce ++ gcmSeal (pbkdf2Key p salt) nonce data)).length
      = data.length + 60 := by
    rw [length_encrypted _ _ _ hs hn, length_gcmSeal]
  unfold DecryptData
  rw [if_neg (by simp), if_neg hp', if_neg (by rw [hlen]; omega)]
  rw [hsplit.1, hsplit.2.1, hsplit.2.2]

/-- C2 (amended): with the service enabled, any non-empty password round-trips:
`DecryptData (EncryptData b p) p = ok b`.  Decrypting with any other
*non-empty* password `p'` fails with the authentication error, and decrypting
with the empty password fails with the password-required error; in both cases
the original bytes are never returned.  The salt and nonce parameters are the
RNG draws made inside `EncryptData` (lengths 32 and 12 as in the code). -/
theorem C2_encrypt_decrypt (b : Bytes) (p p' : String) (salt nonce : Bytes)
    (hp : p ≠ "") (hs : salt.length = 32) (hn : nonce.length = 12) :
    ∃ out, EncryptData true p salt nonce b = Except.ok out ∧
      DecryptData true p out = Except.ok b ∧
      (p' ≠ p → p' ≠ "" →
        DecryptData true p' out = Except.error CryptoErr.authFailed) ∧
      (p' = "" → DecryptData true p' out = Except.error CryptoErr.emptyPassword) ∧
      (p' ≠ p → DecryptData true p' out ≠ Except.ok b) := by
  refine ⟨_, encryptData_ok p salt nonce b hp, ?_, ?_, ?_, ?_⟩
  · rw [decryptData_of_encryptData p p salt nonce b hp hs hn, gcmOpen_gcmSeal]
  · intro hne hp'
    rw [decryptData_of_encryptData p p' salt nonce b hp' hs hn,
        gcmOpen_wrong_password p p' salt nonce b hne]
  · intro hp'
    subst hp'
    simp [DecryptData]
  · intro hne
    by_cases hp' : p' = ""
    · subst hp'
      simp [DecryptData]
    · rw [decryptData_of_encryptData p p' salt nonce b hp' hs hn,
          gcmOpen_wrong_password p p' salt nonce b hne]
      simp

/-- C2 witness: the amended round-trip theorem evaluated at a concrete buffer,
password pair and RNG draw. -/
theorem C2_encrypt_decrypt_witness :
    ∃ out, EncryptData true "a" (List.replicate 32 0) (List.replicate 12 0) [1, 2]
        = Except.ok out ∧
      DecryptData true "a" out = Except.ok [1, 2] ∧
      ("b" ≠ "a" → "b" ≠ "" →
        DecryptData true "b" out = Except.error CryptoErr.authFailed) ∧
      ("b" = "" → DecryptData true "b" out = Except.error CryptoErr.emptyPassword) ∧
      ("b" ≠ "a" → DecryptData true "b" out ≠ Except.ok [1, 2]) :=
  C2_encrypt_decrypt [1, 2] "a" "b" (List.replicate 32 0) (List.replicate 12 0)
    (by decide) (by decide) (by decide)

/-- C2 counterexample: the claim as stated quantifies over *every* password
`p'` different from `p`, but for the empty `p'` the code fails with the
password-required error, not an authentication error
(`src/crypto/encryption.go:78-80` runs before any tag check). -/
theorem C2_counterexample :
    DecryptData true ""
        ((EncryptData true "a" (List.replicate 32 0) (List.replicate 12 0)
          [7]).toOption.getD [])
      = Except.error CryptoErr.emptyPassword ∧
    CryptoErr.emptyPassword ≠ CryptoErr.authFailed :=
  ⟨rfl, by decide⟩

/-- C3: with the service enabled and a non-empty password, the encrypted
buffer is exactly salt(32) ++ nonce(12) ++ (ciphertext ++ tag(16)), so its
total length is the plaintext length plus 60. -/
theorem C3_ciphertext_layout (b : Bytes) (p : String) (salt nonce : Bytes)
    (hp : p ≠ "") (hs : salt.length = 32) (hn : nonce.length = 12) :
    ∃ out, EncryptData true p salt nonce b = Except.ok out ∧
      out.length = b.length + 60 ∧
      out.take 32 = salt ∧
      (out.drop 32).take 12 = nonce ∧
      (out.drop 44).length = b.length + 16 ∧
      out = salt ++ (nonce ++ out.drop 44) := by
  have hsplit := split_encrypted salt nonce
    (gcmSeal (pbkdf2Key p salt) nonce b) hs hn
  refine ⟨_, encryptData_ok p salt nonce b hp, ?_, hsplit.1, hsplit.2.1, ?_, ?_⟩
  · rw [length_encrypted _ _ _ hs hn, length_gcmSeal]
  · rw [hsplit.2.2, length_gcmSeal]
  · rw [hsplit.2.2]

/-- C3 witness: the layout theorem evaluated at a concrete plaintext and RNG
draw. -/
theorem C3_ciphertext_layout_witness :
    ∃ out, EncryptData true "pw" (List.replicate 32 1) (List.replicate 12 2) [9]
        = Except.ok out ∧
      out.length = [9].length + 60 ∧
      out.take 32 = List.replicate 32 1 ∧
      (out.drop 32).take 12 = List.replicate 12 2 ∧
      (out.drop 44).length = [9].length + 16 ∧
      out = List.replicate 32 1 ++ (List.replicate 12 2 ++ out.drop 44) :=
  C3_ciphertext_layout [9] "pw" (List.replicate 32 1) (List.replicate 12 2)
    (by decide) (by decide) (by decide)

/-- C4 (amended): `DecryptData` returns the short-ciphertext error exactly for
buffers shorter than 44 bytes (the code checks `len < 44`, not `< 60`); a
buffer with 44 ≤ length < 60 instead fails with the authentication error,
because the remaining ciphertext is shorter than the 16-byte GCM tag. -/
theorem C4_short_buffer (buf : Bytes) (p : String) (hp : p ≠ "") :
    (buf.length < 44 →
      DecryptData true p buf = Except.error CryptoErr.shortCiphertext) ∧
    (44 ≤ buf.length → buf.length < 60 →
      DecryptData true p buf = Except.error CryptoErr.authFailed) := by
  constructor
  · intro h
    unfold DecryptData
    rw [if_neg (by simp), if_neg hp, if_pos h]
  · intro h44 h60
    have hct : (buf.drop 44).length < 16 := by
      rw [List.length_drop]; omega
    have hopen : gcmOpen (pbkdf2Key p (buf.take 32)) ((buf.drop 32).take 12)
        (buf.drop 44) = none := by
      unfold gcmOpen
      exact if_pos hct
    unfold DecryptData
    rw [if_neg (by simp), if_neg hp, if_neg (by omega), hopen]

/-- C4 witness: the amended theorem evaluated at a 10-byte and (via the second
conjunct) a short-but-over-44 buffer. -/
theorem C4_short_buffer_witness :
    ((List.replicate 10 (0 : Nat)).length < 44 →
      DecryptData true "pw" (List.replicate 10 0)
        = Except.error CryptoErr.shortCiphertext) ∧
    (44 ≤ (List.replicate 10 (0 : Nat)).length →
      (List.replicate 10 (0 : Nat)).length < 60 →
      DecryptData true "pw" (List.replicate 10 0)
        = Except.error CryptoErr.authFailed) :=
  C4_short_buffer (List.replicate 10 0) "pw" (by decide)

/-- C4 counterexample: a 50-byte buffer is shorter than 60 = 44 + 16, yet the
code does not report the short-ciphertext error — it reaches GCM and fails
with the authentication error instead. -/
theorem C4_counterexample :
    DecryptData true "pw" (List.replicate 50 0)
      = Except.error CryptoErr.authFailed ∧
    (List.replicate 50 (0 : Nat)).length < 60 ∧
    CryptoErr.authFailed ≠ CryptoErr.shortCiphertext :=
  ⟨rfl, by decide, by decide⟩

/-- C10: a disabled encryption service passes every buffer through unchanged
in both directions, for every password including the empty one, and never
fails — the `enabled` check precedes every other check in both functions. -/
theorem C10_disabled_identity (p : String) (salt nonce b : Bytes) :
    EncryptData false p salt nonce b = Except.ok b ∧
    DecryptData false p b = Except.ok b :=
  ⟨rfl, rfl⟩

/-! ## Chunker (`Converter.createChunks`) -/

/-- Mirror of the `qr.Chunk` record (`src/pkg/qr/generator.go:29-39`).  The
`created_at` timestamp is irrelevant to the claims and omitted. -/
structure ChunkRec where
  id : String
  index : Nat
  chunkTotal : Nat
  data : Bytes
  sourceFile : String
  mimeType : String
  hash : String
  encrypted : Bool
  deriving DecidableEq

/-- The successive `data[i:end]` windows of the Go loop
`for i := 0; i < len(data); i += chunkSize` in `Converter.createChunks`
(`src/internal/converter/converter.go:374-394`).  For `cs = 0` the Go loop
would never terminate; the claims only use `cs > 0` (chunk size above the
200-byte metadata reserve). -/
def chunkSlices {α : Type} (cs : Nat) : List α → List (List α)
  | [] => []
  | a :: l =>
    if _h : cs = 0 then []
    else (a :: l).take cs :: chunkSlices cs ((a :: l).drop cs)
  termination_by l => l.length
  decreasing_by
    simp only [List.length_drop, List.length_cons]
    omega

/-- Embedding of `Converter.createChunks`
(`src/internal/converter/converter.go:370-401`): the effective chunk size is
the configured size minus 200, each window becomes a chunk stamped with its
running index and the up-front total `ceil(len/cs)`, and afterwards every
chunk's total is back-stamped with the final chunk count.  `filePath` stands
for `filepath.Base(filePath)` (basename resolution is outside the model). -/
def createChunks (chunkSizeCfg : Nat) (data : Bytes)
    (filePath mimeType hash : String) (encrypted : Bool) : List ChunkRec :=
  let cs := chunkSizeCfg - 200
  let pre := (chunkSlices cs data).enum.map (fun p =>
    { id := hash.take 8 ++ "_" ++ toString p.1
      index := p.1
      chunkTotal := (data.length + cs - 1) / cs
      data := p.2
      sourceFile := filePath
      mimeType := mimeType
      hash := hash
      encrypted := encrypted : ChunkRec })
  pre.map (fun c => { c with chunkTotal := pre.length })

theorem chunkSlices_flatten {α : Type} (cs : Nat) (hcs : 0 < cs) (l : List α) :
    (chunkSlices cs l).flatten = l := by
  have H : ∀ n (l : List α), l.length = n → (chunkSlices cs l).flatten = l := by
    intro n
    induction n using Nat.strong_induction_on with
    | _ n ih =>
      intro l hn
      cases l with
      | nil => simp [chunkSlices]
      | cons a t =>
        have hn' : t.length + 1 = n := by simpa using hn
        rw [chunkSlices, dif_neg (by omega)]
        rw [List.flatten_cons]
        rw [ih (((a :: t).drop cs).length)
          (by simp only [List.length_drop, List.length_cons]; omega) _ rfl]
        exact List.take_append_drop cs (a :: t)
  exact H l.length l rfl

theorem chunkSlices_length {α : Type} (cs : Nat) (hcs : 0 < cs) (l : List α) :
    (chunkSlices cs l).length = (l.length + cs - 1) / cs := by
  have H : ∀ n (l : List α), l.length = n →
      (chunkSlices cs l).length = (l.length + cs - 1) / cs := by
    intro n
    induction n using Nat.strong_induction_on with
    | _ n ih =>
      intro l hn
      cases l with
      | nil =>
        simp only [chunkSlices, List.length_nil]
        rw [Nat.div_eq_of_lt (by omega)]
      | cons a t =>
        have hn' : t.length + 1 = n := by simpa using hn
        rw [chunkSlices, dif_neg (by omega)]
        rw [List.length_cons, ih (((a :: t).drop cs).length)
          (by simp only [List.length_drop, List.length_cons]; omega) _ rfl]
        simp only [List.length_drop, List.length_cons]
        rcases Nat.lt_or_ge (t.length + 1) cs with hlt | hge
        · have e0 : t.length + 1 - cs = 0 := by omega
          have e1 : (0 + cs - 1) / cs = 0 := Nat.div_eq_of_lt (by omega)
          have e2 : (t.length + 1 + cs - 1) / cs = 1 :=
            @Nat.div_eq_of_lt_le 1 cs (t.length + 1 + cs - 1) (by omega) (by omega)
          rw [e0, e1, e2]
        · have h1 : t.length + 1 - cs + cs - 1 = t.length := by omega
          have h2 : t.length + 1 + cs - 1 = t.length + cs := by omega
          rw [h1, h2, Nat.add_div_right _ hcs]
  exact H l.length l rfl

theorem chunkSlices_sizes {α : Type} (cs : Nat) (hcs : 0 < cs) (l : List α) :
    ∀ s ∈ chunkSlices cs l, s.length ≤ cs := by
  have H : ∀ n (l : List α), l.length = n → ∀ s ∈ chunkSlices cs l, s.length ≤ cs := by
    intro n
    induction n using Nat.strong_induction_on with
    | _ n ih =>
      intro l hn
      cases l with
      | nil => simp [chunkSlices]
      | cons a t =>
        have hn' : t.length + 1 = n := by simpa using hn
        rw [chunkSlices, dif_neg (by omega)]
        intro s hs
        rcases List.mem_cons.mp hs with rfl | hmem
        · exact List.length_take_le cs (a :: t)
        · exact ih (((a :: t).drop cs).length)
            (by simp only [List.length_drop, List.length_cons]; omega) _ rfl s hmem
  exact H l.length l rfl

/-- C5: for a chunk size above the 200-byte reserve, `createChunks` splits the
payload into `ceil(len / (S_cfg - 200))` chunks whose indices are `0..n-1` in
input order, each at most `S_cfg - 200` bytes, every chunk's total field is
back-stamped to the final count `n`, and concatenating the chunk payloads in
order reproduces the input; a non-empty payload yields at least one chunk. -/
theorem C5_createChunks (cfg : Nat) (data : Bytes) (fp mt hsh : String)
    (enc : Bool) (hcfg : 200 < cfg) :
    (createChunks cfg data fp mt hsh enc).length
        = (data.length + (cfg - 200) - 1) / (cfg - 200) ∧
    (createChunks cfg data fp mt hsh enc).map (·.index)
        = List.range (createChunks cfg data fp mt hsh enc).length ∧
    (∀ c ∈ createChunks cfg data fp mt hsh enc,
      c.chunkTotal = (createChunks cfg data fp mt hsh enc).length) ∧
    ((createChunks cfg data fp mt hsh enc).map (·.data)).flatten = data ∧
    (∀ c ∈ createChunks cfg data fp mt hsh enc, c.data.length ≤ cfg - 200) ∧
    (data ≠ [] → 0 < (createChunks cfg data fp mt hsh enc).length) := by
  have hcs : 0 < cfg - 200 := by omega
  have hlen : (createChunks cfg data fp mt hsh enc).length
      = (chunkSlices (cfg - 200) data).length := by
    simp [createChunks]
  refine ⟨?_, ?_, ?_, ?_, ?_, ?_⟩
  · rw [hlen, chunkSlices_length _ hcs]
  · have hmaps : (createChunks cfg data fp mt hsh enc).map (·.index)
        = ((chunkSlices (cfg - 200) data).enum).map Prod.fst := by
      simp only [createChunks, List.map_map]
      rfl
    rw [hmaps, List.enum_map_fst, hlen]
  · intro c hc
    simp only [createChunks, List.mem_map] at hc
    obtain ⟨c', hc', rfl⟩ := hc
    simp [createChunks]
  · have hmaps : (createChunks cfg data fp mt hsh enc).map (·.data)
        = ((chunkSlices (cfg - 200) data).enum).map Prod.snd := by
      simp only [createChunks, List.map_map]
      rfl
    rw [hmaps, List.enum_map_snd]
    exact chunkSlices_flatten (cfg - 200) hcs data
  · intro c hc
    simp only [createChunks, List.mem_map] at hc
    obtain ⟨c', hc', rfl⟩ := hc
    obtain ⟨p, hp, rfl⟩ := hc'
    have hmem : p.2 ∈ chunkSlices (cfg - 200) data :=
      List.getElem?_mem (List.mem_enum_iff_getElem?.mp hp)
    simpa using chunkSlices_sizes (cfg - 200) hcs data p.2 hmem
  · intro hne
    rw [hlen]
    cases hd : data with
    | nil => exact absurd hd hne
    | cons a t =>
      rw [chunkSlices, dif_neg (by omega)]
      simp

/-- C5 witness: the chunking theorem evaluated at a 7-byte payload with an
effective chunk size of 3 (configured size 203). -/
theorem C5_createChunks_witness :
    (createChunks 203 [1, 2, 3, 4, 5, 6, 7] "f.txt" "text/plain" "h" false).length
        = ([1, 2, 3, 4, 5, 6, 7].length + (203 - 200) - 1) / (203 - 200) ∧
    (createChunks 203 [1, 2, 3, 4, 5, 6, 7] "f.txt" "text/plain" "h" false).map (·.index)
        = List.range (createChunks 203 [1, 2, 3, 4, 5, 6, 7] "f.txt" "text/plain" "h"
            false).length ∧
    (∀ c ∈ createChunks 203 [1, 2, 3, 4, 5, 6, 7] "f.txt" "text/plain" "h" false,
      c.chunkTotal = (createChunks 203 [1, 2, 3, 4, 5, 6, 7] "f.txt" "text/plain" "h"
            false).length) ∧
    ((createChunks 203 [1, 2, 3, 4, 5, 6, 7] "f.txt" "text/plain" "h" false).map
        (·.data)).flatten = [1, 2, 3, 4, 5, 6, 7] ∧
    (∀ c ∈ createChunks 203 [1, 2, 3, 4, 5, 6, 7] "f.txt" "text/plain" "h" false,
      c.data.length ≤ 203 - 200) ∧
    ([1, 2, 3, 4, 5, 6, 7] ≠ ([] : Bytes) →
      0 < (createChunks 203 [1, 2, 3, 4, 5, 6, 7] "f.txt" "text/plain" "h"
            false).length) :=
  C5_createChunks 203 [1, 2, 3, 4, 5, 6, 7] "f.txt" "text/plain" "h" false (by decide)

/-! ## Integrity verifier (`handleVerify`) -/

/-- Accumulator of the `handleVerify` loop (`src/cmd/pixe/handlers.go`):
success/fail counters, the frame indices whose failures were printed in
detail, and the frame indices at which a progress line was printed. -/
structure VerifyState where
  successCount : Nat
  failCount : Nat
  detailed : List Nat
  progress : List Nat
  deriving DecidableEq

/-- One iteration of the `handleVerify` frame loop: attempt
`ExtractSingleFrame` (abstracted as the oracle `frameOk`, since it shells out
to ffmpeg and the QR decoder), bump the counters, print the failure in detail
while no more than 5 failures have occurred, and print progress on every 10th
frame and on the final frame. -/
def verifyStep (frameOk : Nat → Bool) (frameCount : Nat) (st : VerifyState)
    (i : Nat) : VerifyState :=
  let st1 :=
    if frameOk i then
      { st with successCount := st.successCount + 1 }
    else
      { st with
        failCount := st.failCount + 1
        detailed :=
          if st.failCount + 1 ≤ 5 then st.detailed ++ [i] else st.detailed }
  if (i + 1) % 10 = 0 ∨ i = frameCount - 1 then
    { st1 with progress := st1.progress ++ [i] }
  else st1

/-- Final report of `handleVerify`: the loop result plus the printed verdict
line ("GOOD" iff no frame failed, else "DEGRADED"). -/
structure VerifyReport where
  successCount : Nat
  failCount : Nat
  detailed : List Nat
  progress : List Nat
  verdict : String

/-- Embedding of the frame-verification part of `handleVerify`
(`src/cmd/pixe/handlers.go:632-682`): walk frames `0..frameCount-1`,
accumulate with `verifyStep`, and issue the verdict from the fail count. -/
def handleVerify (frameOk : Nat → Bool) (frameCount : Nat) : VerifyReport :=
  let st := (List.range frameCount).foldl (verifyStep frameOk frameCount)
    ⟨0, 0, [], []⟩
  { successCount := st.successCount
    failCount := st.failCount
    detailed := st.detailed
    progress := st.progress
    verdict := if st.failCount = 0 then "GOOD" else "DEGRADED" }

theorem verifyLoop_spec (fk : Nat → Bool) (N : Nat) (l : List Nat) :
    ∀ (s0 : Nat) (f0 p0 : List Nat),
    l.foldl (verifyStep fk N) ⟨s0, f0.length, f0.take 5, p0⟩
      = ⟨s0 + l.countP fk,
         (f0 ++ l.filter (fun i => !fk i)).length,
         (f0 ++ l.filter (fun i => !fk i)).take 5,
         p0 ++ l.filter (fun i => decide ((i + 1) % 10 = 0 ∨ i = N - 1))⟩ := by
  induction l with
  | nil => intro s0 f0 p0; simp
  | cons i l ih =>
    intro s0 f0 p0
    rw [List.foldl_cons]
    have hstep : verifyStep fk N ⟨s0, f0.length, f0.take 5, p0⟩ i
        = ⟨s0 + (if fk i then 1 else 0),
           (f0 ++ if fk i then [] else [i]).length,
           (f0 ++ if fk i then [] else [i]).take 5,
           p0 ++ if (i + 1) % 10 = 0 ∨ i = N - 1 then [i] else []⟩ := by
      unfold verifyStep
      by_cases hok : fk i
      · by_cases hprog : (i + 1) % 10 = 0 ∨ i = N - 1 <;>
          simp [hok, hprog]
      · have hdet : (f0 ++ [i]).take 5
            = if f0.length + 1 ≤ 5 then f0.take 5 ++ [i] else f0.take 5 := by
          by_cases hlen : f0.length + 1 ≤ 5
          · rw [if_pos hlen]
            rw [List.take_append_eq_append_take]
            have : f0.take 5 = f0 := List.take_of_length_le (by omega)
            rw [this]
            have h1 : [i].take (5 - f0.length) = [i] := by
              have : 1 ≤ 5 - f0.length := by omega
              exact List.take_of_length_le (by simpa using this)
            rw [h1]
          · rw [if_neg hlen]
            rw [List.take_append_eq_append_take]
            have h1 : [i].take (5 - f0.length) = [] := by
              have : 5 - f0.length = 0 := by omega
              rw [this]; rfl
            rw [h1, List.append_nil]
        by_cases hprog : (i + 1) % 10 = 0 ∨ i = N - 1 <;>
          by_cases hlen : f0.length + 1 ≤ 5 <;>
          simp [hok, hprog, hlen, hdet]
    rw [hstep]
    have hconsfold := ih (s0 + (if fk i then 1 else 0))
      (f0 ++ if fk i then [] else [i])
      (p0 ++ if (i + 1) % 10 = 0 ∨ i = N - 1 then [i] else [])
    rw [hconsfold]
    by_cases hok : fk i <;>
      by_cases hprog : (i + 1) % 10 = 0 ∨ i = N - 1 <;>
      simp [hok, hprog, List.countP_cons, List.filter_cons] <;>
      omega

/-- C9: the verifier attempts every frame `0..N-1` (success and fail counts
partition `N` according to the per-frame outcome), prints a progress line
exactly at the frames `i` with `(i+1) % 10 = 0` or `i = N-1`, details exactly
the first (at most) 5 failing frames, and issues verdict "GOOD" iff the
failure count is zero and "DEGRADED" otherwise, alongside the total count. -/
theorem C9_handleVerify (fk : Nat → Bool) (N : Nat) :
    (handleVerify fk N).successCount = (List.range N).countP fk ∧
    (handleVerify fk N).failCount
        = ((List.range N).filter (fun i => !fk i)).length ∧
    (handleVerify fk N).successCount + (handleVerify fk N).failCount = N ∧
    (handleVerify fk N).detailed
        = ((List.range N).filter (fun i => !fk i)).take 5 ∧
    (handleVerify fk N).progress
        = (List.range N).filter (fun i => decide ((i + 1) % 10 = 0 ∨ i = N - 1)) ∧
    ((handleVerify fk N).verdict = "GOOD" ↔ (handleVerify fk N).failCount = 0) ∧
    ((handleVerify fk N).failCount ≠ 0 →
      (handleVerify fk N).verdict = "DEGRADED") := by
  have hfilterlen : ∀ (p : Nat → Bool) (l : List Nat),
      (l.filter p).length = l.countP p := by
    intro p l
    induction l with
    | nil => rfl
    | cons a t ih =>
      by_cases h : p a <;> simp [List.filter_cons, List.countP_cons, h, ih]
  have hcount : (List.range N).countP fk
      + ((List.range N).filter (fun i => !fk i)).length = N := by
    rw [hfilterlen]
    have h1 := List.length_eq_countP_add_countP fk (List.range N)
    have h2 : (List.range N).countP (fun a => !fk a)
        = (List.range N).countP (fun a => decide ¬(fk a = true)) := by
      apply List.countP_congr; intro a _; by_cases h : fk a <;> simp [h]
    rw [h2]
    simp only [List.length_range] at h1
    omega
  have hfold := verifyLoop_spec fk N (List.range N) 0 [] []
  simp only [List.length_nil, List.take_nil] at hfold
  have hrep : handleVerify fk N
      = { successCount := 0 + (List.range N).countP fk
          failCount := (([] : List Nat)
            ++ (List.range N).filter (fun i => !fk i)).length
          detailed := (([] : List Nat)
            ++ (List.range N).filter (fun i => !fk i)).take 5
          progress := ([] : List Nat)
            ++ (List.range N).filter (fun i => decide ((i + 1) % 10 = 0 ∨ i = N - 1))
          verdict := if (([] : List Nat)
            ++ (List.range N).filter (fun i => !fk i)).length = 0
            then "GOOD" else "DEGRADED" } := by
    unfold handleVerify
    rw [show (⟨0, 0, [], []⟩ : VerifyState)
        = ⟨0, ([] : List Nat).length, ([] : List Nat).take 5, []⟩ from rfl]
    rw [verifyLoop_spec fk N (List.range N) 0 [] []]
  rw [hrep]
  refine ⟨by simp, by simp, ?_, by simp, by simp, ?_, ?_⟩
  · simp only [List.nil_append, Nat.zero_add]
    rw [hfilterlen] at hcount ⊢
    exact hcount
  · simp only [List.nil_append, Nat.zero_add]
    constructor
    · intro h
      by_contra hne
      rw [if_neg hne] at h
      exact absurd h (by decide)
    · intro h; rw [if_pos h]
  · simp only [List.nil_append, Nat.zero_add]
    intro h; rw [if_neg h]

/-! ## Index store search (`Indexer.Search`)

The Go code scores with `float32` arithmetic; the embedding uses exact
rationals for vector entries and scores, and abstracts `math.Sqrt` as an
arbitrary function parameter `sqrtFn` — the claims proved here (result count,
descending order, zero-scoring of degenerate entries) do not depend on the
numeric realization of the square root. -/

/-- Mirror of `index.FrameIndex` (`src/internal/index/types.go:18-27`). -/
structure FrameIndex where
  frameNumber : Nat
  chunkIndex : Nat
  hash : String
  sourceFile : String
  contentHash : String
  contentLen : Nat
  embedding : List ℚ
  preview : String

/-- Mirror of `index.MemoryIndex` (`src/internal/index/types.go:6-15`);
timestamps omitted. -/
structure MemoryIndex where
  memoryID : String
  pixeFile : String
  totalFrames : Nat
  vectorDim : Nat
  frames : List FrameIndex
  version : Nat

/-- Mirror of `index.SearchResult` (`src/internal/index/types.go:30-36`). -/
structure SearchResult where
  frameNumber : Nat
  score : ℚ
  sourceFile : String
  preview : String
  chunkIndex : Nat

/-- Embedding of `cosineSimilarity` (`src/internal/index/indexer.go:196-213`):
zero on dimension mismatch, zero when either norm is zero, otherwise the dot
product over the product of the square roots of the norms. -/
def cosineSimilarity (sqrtFn : ℚ → ℚ) (a b : List ℚ) : ℚ :=
  if a.length ≠ b.length then 0
  else
    let dotProduct := (List.zipWith (fun x y => x * y) a b).sum
    let normA := (List.zipWith (fun x y => x * y) a a).sum
    let normB := (List.zipWith (fun x y => x * y) b b).sum
    if normA = 0 ∨ normB = 0 then 0
    else dotProduct / (sqrtFn normA * sqrtFn normB)

/-- Embedding of `Indexer.Search` (`src/internal/index/indexer.go:121-162`)
after the query has been embedded (the embedder is an external service):
score every frame with `cosineSimilarity`, sort descending by score, and
return the top `min(topK, N)` as `SearchResult`s. -/
def Search (sqrtFn : ℚ → ℚ) (index : MemoryIndex) (queryEmbed : List ℚ)
    (topK : Nat) : List SearchResult :=
  let scores := index.frames.map
    (fun f => (f, cosineSimilarity sqrtFn queryEmbed f.embedding))
  let sorted := scores.mergeSort (fun x y => decide (y.2 ≤ x.2))
  let k := min topK sorted.length
  (sorted.take k).map (fun p =>
    { frameNumber := p.1.frameNumber
      score := p.2
      sourceFile := p.1.sourceFile
      preview := p.1.preview
      chunkIndex := p.1.chunkIndex })

/-- C6: `Search` returns exactly `min(k, N)` results, sorted in non-increasing
order of score; every result is a frame of the index scored by
`cosineSimilarity`; and any frame whose embedding has a dimension different
from the query or whose embedding (or the query) has zero norm scores 0. -/
theorem C6_search (sqrtFn : ℚ → ℚ) (index : MemoryIndex) (q : List ℚ)
    (k : Nat) :
    (Search sqrtFn index q k).length = min k index.frames.length ∧
    (Search sqrtFn index q k).Pairwise (fun r s => s.score ≤ r.score) ∧
    (∀ r ∈ Search sqrtFn index q k, ∃ f ∈ index.frames,
      r.score = cosineSimilarity sqrtFn q f.embedding ∧
      r.frameNumber = f.frameNumber ∧ r.sourceFile = f.sourceFile ∧
      r.chunkIndex = f.chunkIndex ∧ r.preview = f.preview) ∧
    (∀ f ∈ index.frames,
      f.embedding.length ≠ q.length ∨
        (List.zipWith (fun x y => x * y) f.embedding f.embedding).sum = 0 →
      cosineSimilarity sqrtFn q f.embedding = 0) := by
  refine ⟨?_, ?_, ?_, ?_⟩
  · simp only [Search, List.length_map, List.length_take, List.length_mergeSort]
    omega
  · have hsorted : (index.frames.map
        (fun f => (f, cosineSimilarity sqrtFn q f.embedding))).mergeSort
          (fun x y => decide (y.2 ≤ x.2)) |>.Pairwise
            (fun x y : FrameIndex × ℚ => y.2 ≤ x.2) := by
      have := @List.sorted_mergeSort (FrameIndex × ℚ)
        (fun x y => decide (y.2 ≤ x.2))
        (fun a b c hab hbc => by
          simp only [decide_eq_true_eq] at *
          exact le_trans hbc hab)
        (fun a b => by
          simp only [Bool.or_eq_true, decide_eq_true_eq]
          exact le_total b.2 a.2)
        (index.frames.map (fun f => (f, cosineSimilarity sqrtFn q f.embedding)))
      exact this.imp (by intro a b h; simpa using h)
    simp only [Search]
    rw [List.pairwise_map]
    exact List.Pairwise.sublist (List.take_sublist _ _) hsorted
  · intro r hr
    simp only [Search, List.mem_map] at hr
    obtain ⟨p, hp, rfl⟩ := hr
    have hp2 : p ∈ (index.frames.map
        (fun f => (f, cosineSimilarity sqrtFn q f.embedding))).mergeSort
          (fun x y => decide (y.2 ≤ x.2)) := List.mem_of_mem_take hp
    have hp3 : p ∈ index.frames.map
        (fun f => (f, cosineSimilarity sqrtFn q f.embedding)) :=
      (List.mergeSort_perm _ _).mem_iff.mp hp2
    obtain ⟨f, hf, rfl⟩ := List.mem_map.mp hp3
    exact ⟨f, hf, rfl, rfl, rfl, rfl, rfl⟩
  · intro f _ hdeg
    unfold cosineSimilarity
    rcases hdeg with hdim | hnorm
    · rw [if_pos (by omega)]
    · by_cases hdim : q.length ≠ f.embedding.length
      · rw [if_pos hdim]
      · rw [if_neg hdim, if_pos (Or.inr hnorm)]

/-! ## Delta manager (`DeltaManager`) -/

/-- Mirror of `index.DeltaOp` (`src/internal/index/types.go:51-57`). -/
structure DeltaOp where
  type : String
  frameIndex : Int
  oldHash : String
  newHash : String
  chunkData : String
  deriving DecidableEq

/-- Mirror of `index.DeltaVersion` (`src/internal/index/types.go:39-48`);
timestamp omitted. -/
structure DeltaVersion where
  version : Int
  parentVersion : Int
  deltaFile : String
  operations : List DeltaOp
  message : String
  author : String
  frameCount : Int
  deriving DecidableEq

/-- Mirror of `index.VersionedMemory` (`src/internal/index/types.go:60-68`);
the Go `map[string]int` becomes a function to `Option Int` (absent key =
`none`), timestamps omitted. -/
structure VersionedMemory where
  memoryID : String
  baseFile : String
  currentHead : Int
  versions : List DeltaVersion
  branches : String → Option Int

/-- Embedding of `DeltaManager.calculateDelta`
(`src/internal/index/delta.go:82-99`): the MVP always emits a single
`replace_all` operation whose new hash is the hash of the new artifact file
(`hashFile` abstracts `dm.hashFile`, which reads the file from disk). -/
def calculateDelta (hashFile : String → String) (_vm : VersionedMemory)
    (newPixeFile : String) : List DeltaOp :=
  [{ type := "replace_all", frameIndex := 0, oldHash := ""
     newHash := hashFile newPixeFile, chunkData := "" }]

/-- Embedding of `DeltaManager.CreateVersion`
(`src/internal/index/delta.go:29-79`).  The on-disk state (absent or loaded
`VersionedMemory`) is the `Option` input; the result is the persisted new
state and the returned `DeltaVersion` (the Go code returns `nil` on base
initialization). -/
def CreateVersion (hashFile : String → String) (st : Option VersionedMemory)
    (memoryID newPixeFile message author : String) :
    Option VersionedMemory × Option DeltaVersion :=
  match st with
  | none =>
      (some { memoryID := memoryID, baseFile := newPixeFile, currentHead := 1
              versions := []
              branches := fun name => if name = "main" then some 1 else none },
       none)
  | some vm =>
      let newVersion := vm.currentHead + 1
      let ops := calculateDelta hashFile vm newPixeFile
      let deltaVer : DeltaVersion :=
        { version := newVersion, parentVersion := vm.currentHead
          deltaFile := newPixeFile, operations := ops, message := message
          author := author, frameCount := ops.length }
      (some { vm with
                versions := vm.versions ++ [deltaVer]
                currentHead := newVersion
                branches := fun name =>
                  if name = "main" then some newVersion else vm.branches name },
       some deltaVer)

/-- A sequence of `CreateVersion` calls against one archive's version log,
starting from an absent log. -/
def applyCreateVersions (hashFile : String → String) (memoryID : String)
    (calls : List (String × String × String)) : Option VersionedMemory :=
  calls.foldl
    (fun st c => (CreateVersion hashFile st memoryID c.1 c.2.1 c.2.2).1) none

/-- The structural invariant of a version log: the stored records carry
versions `2, 3, …, n+1` in order, the head is one past the record count
(version 1 is the base artifact and has no record), and the `main` branch tag
points at the head. -/
def VersionLogWF (vm : VersionedMemory) : Prop :=
  vm.versions.map (·.version)
      = (List.range vm.versions.length).map (fun j : Nat => (j : Int) + 2) ∧
  vm.currentHead = vm.versions.length + 1 ∧
  vm.branches "main" = some vm.currentHead ∧
  ∀ dv ∈ vm.versions, dv.parentVersion = dv.version - 1

theorem createVersion_wf (hashFile : String → String) (vm : VersionedMemory)
    (mid f m a : String) (hwf : VersionLogWF vm) :
    ∀ vm', (CreateVersion hashFile (some vm) mid f m a).1 = some vm' →
      VersionLogWF vm' ∧ vm'.currentHead = vm.currentHead + 1 ∧
      vm'.versions.length = vm.versions.length + 1 := by
  intro vm' h
  obtain ⟨hver, hhead, hbr, hpar⟩ := hwf
  simp only [CreateVersion] at h
  obtain rfl := Option.some.inj h
  refine ⟨⟨?_, ?_, ?_, ?_⟩, rfl, by simp⟩
  · simp only [List.map_append, List.length_append, List.map_cons,
      List.map_nil, List.length_cons, List.length_nil]
    rw [hver, hhead]
    rw [show vm.versions.length + (0 + 1) = vm.versions.length + 1 from by omega]
    rw [List.range_succ, List.map_append]
    simp only [List.map_cons, List.map_nil, List.append_cancel_left_eq,
      List.cons.injEq, and_true]
    omega
  · simp [hhead]
  · simp
  · intro dv hdv
    rcases List.mem_append.mp hdv with hmem | hmem
    · exact hpar dv hmem
    · simp only [List.mem_singleton] at hmem
      subst hmem
      simp

/-- C7: after any sequence of `CreateVersion` calls, the version log is
well-formed: record versions are exactly `2, 3, …, head` in strictly
increasing order, every record's parent is its predecessor (the previous
head), the head equals the record count plus one (version 1 being the base
with no record), the `main` branch tag equals the head; and one further
`CreateVersion` call advances both the head and the `main` tag to `head+1`. -/
theorem C7_create_version (hashFile : String → String) (mid : String)
    (calls : List (String × String × String)) (vm : VersionedMemory)
    (h : applyCreateVersions hashFile mid calls = some vm) :
    vm.versions.map (·.version)
        = (List.range vm.versions.length).map (fun j : Nat => (j : Int) + 2) ∧
    List.Chain' (· < ·) (vm.versions.map (·.version)) ∧
    (∀ dv ∈ vm.versions,
      dv.parentVersion = dv.version - 1 ∧ dv.parentVersion < dv.version ∧
      2 ≤ dv.version) ∧
    vm.currentHead = vm.versions.length + 1 ∧
    vm.branches "main" = some vm.currentHead ∧
    (∀ f m a, ∀ vm', (CreateVersion hashFile (some vm) mid f m a).1 = some vm' →
      vm'.currentHead = vm.currentHead + 1 ∧
      vm'.branches "main" = some (vm.currentHead + 1)) := by
  have hwfAll : ∀ (cs : List (String × String × String)) (vm' : VersionedMemory),
      applyCreateVersions hashFile mid cs = some vm' → VersionLogWF vm' := by
    intro cs
    induction cs using List.reverseRecOn with
    | nil => intro vm' h'; simp [applyCreateVersions] at h'
    | append_singleton l c ih =>
      intro vm' h'
      rw [applyCreateVersions, List.foldl_append, List.foldl_cons,
        List.foldl_nil] at h'
      rcases hprev : l.foldl
          (fun st c => (CreateVersion hashFile st mid c.1 c.2.1 c.2.2).1)
          none with _ | vm₀
      · rw [hprev] at h'
        simp only [CreateVersion] at h'
        obtain rfl := Option.some.inj h'
        refine ⟨by simp, by simp, by simp, by simp⟩
      · rw [hprev] at h'
        have hwf₀ : VersionLogWF vm₀ := ih vm₀ hprev
        exact (createVersion_wf hashFile vm₀ mid c.1 c.2.1 c.2.2 hwf₀ vm' h').1
  have hwf : VersionLogWF vm := hwfAll calls vm h
  obtain ⟨hver, hhead, hbr, hpar⟩ := hwf
  refine ⟨hver, ?_, ?_, hhead, hbr, ?_⟩
  · rw [hver]
    have hp : List.Pairwise (· < ·)
        ((List.range vm.versions.length).map (fun j : Nat => (j : Int) + 2)) := by
      rw [List.pairwise_map]
      exact (List.pairwise_lt_range _).imp (fun {a b} hab => by omega)
    exact hp.chain'
  · intro dv hdv
    have h2 : 2 ≤ dv.version := by
      have hmem : dv.version ∈ vm.versions.map (·.version) :=
        List.mem_map_of_mem _ hdv
      rw [hver] at hmem
      obtain ⟨j, -, hj⟩ := List.mem_map.mp hmem
      omega
    exact ⟨hpar dv hdv, by rw [hpar dv hdv]; omega, h2⟩
  · intro f m a vm' h'
    simp only [CreateVersion] at h'
    obtain rfl := Option.some.inj h'
    exact ⟨rfl, by simp⟩

/-- A placeholder state used only as the `getD` default below. -/
def dummyVM : VersionedMemory :=
  { memoryID := "", baseFile := "", currentHead := 0, versions := []
    branches := fun _ => none }

/-- The version log reached by two concrete `CreateVersion` calls (base
initialization followed by one appended version). -/
def sampleVM : VersionedMemory :=
  (applyCreateVersions (fun f => f) "mem"
    [("base.pixe", "init", "alice"), ("v2.pixe", "second", "alice")]).getD dummyVM

/-- C7 witness: the invariant theorem applied to a concrete two-call state. -/
theorem C7_create_version_witness :
    applyCreateVersions (fun f => f) "mem"
        [("base.pixe", "init", "alice"), ("v2.pixe", "second", "alice")]
      = some sampleVM ∧
    (sampleVM.versions.map (·.version)
        = (List.range sampleVM.versions.length).map (fun j : Nat => (j : Int) + 2) ∧
    List.Chain' (· < ·) (sampleVM.versions.map (·.version)) ∧
    (∀ dv ∈ sampleVM.versions,
      dv.parentVersion = dv.version - 1 ∧ dv.parentVersion < dv.version ∧
      2 ≤ dv.version) ∧
    sampleVM.currentHead = sampleVM.versions.length + 1 ∧
    sampleVM.branches "main" = some sampleVM.currentHead ∧
    (∀ f m a, ∀ vm',
      (CreateVersion (fun f => f) (some sampleVM) "mem" f m a).1 = some vm' →
      vm'.currentHead = sampleVM.currentHead + 1 ∧
      vm'.branches "main" = some (sampleVM.currentHead + 1))) :=
  ⟨rfl, C7_create_version (fun f => f) "mem"
    [("base.pixe", "init", "alice"), ("v2.pixe", "second", "alice")] sampleVM rfl⟩

/-! ## Version diffing (`DeltaManager.GetVersionDiff`) -/

/-- The Go loop of `GetVersionDiff` (`src/internal/index/delta.go:147-152`):
`for i := fromVersion; i < toVersion && i <= len(vm.Versions); i++` collecting
`vm.Versions[i-1].Operations` when `i > 0 && i <= len(vm.Versions)`. -/
def diffLoop (versions : List DeltaVersion) (toVersion : Int) (i : Int) :
    List DeltaOp :=
  if i < toVersion ∧ i ≤ (versions.length : Int) then
    (if 1 ≤ i ∧ i ≤ (versions.length : Int) then
      match versions.get? (i - 1).toNat with
      | some dv => dv.operations
      | none => []
     else []) ++ diffLoop versions toVersion (i + 1)
  else []
  termination_by (toVersion - i).toNat
  decreasing_by omega

/-- Embedding of `DeltaManager.GetVersionDiff`
(`src/internal/index/delta.go:141-155`): load the version log (the `Option`
input; a missing log is the only error) and run the collection loop.  Note
that out-of-range endpoints are *not* rejected. -/
def GetVersionDiff (st : Option VersionedMemory) (fromVersion toVersion : Int) :
    Except String (List DeltaOp) :=
  match st with
  | none => .error "version history not found"
  | some vm => .ok (diffLoop vm.versions toVersion fromVersion)

/-- Positional version numbering: entry `j` of the record list carries
version `base + j`. -/
def IndexedFrom (versions : List DeltaVersion) (base : Int) : Prop :=
  ∀ j (hj : j < versions.length), (versions.get ⟨j, hj⟩).version = base + j

theorem indexedFrom_cons (d : DeltaVersion) (rest : List DeltaVersion)
    (base : Int) (h : IndexedFrom (d :: rest) base) :
    d.version = base ∧ IndexedFrom rest (base + 1) := by
  constructor
  · have := h 0 (by simp)
    simpa using this
  · intro j hj
    have hv := h (j + 1) (by simpa using Nat.succ_lt_succ hj)
    simp only [List.get_eq_getElem, List.getElem_cons_succ] at hv ⊢
    rw [hv]
    push_cast
    ring

theorem indexedFrom_version_bounds (versions : List DeltaVersion) (base : Int)
    (h : IndexedFrom versions base) :
    ∀ dv ∈ versions, base ≤ dv.version ∧
      dv.version ≤ base + versions.length - 1 := by
  intro dv hdv
  obtain ⟨j, hj, rfl⟩ := List.mem_iff_getElem.mp hdv
  have := h j hj
  rw [List.get_eq_getElem] at this
  rw [this]
  omega

theorem filter_window_shift (t : Int) (vs : List DeltaVersion) (base i : Int)
    (h : IndexedFrom vs base) (hlt : i + 1 < base) :
    vs.filter (fun dv => decide (i < dv.version ∧ dv.version ≤ t))
      = vs.filter (fun dv => decide (i + 1 < dv.version ∧ dv.version ≤ t)) := by
  apply List.filter_congr
  intro dv hdv
  have hb := (indexedFrom_version_bounds vs base h dv hdv).1
  have h1 : i < dv.version := by omega
  have h2 : i + 1 < dv.version := by omega
  simp [h1, h2]

theorem filter_window_extract (t : Int) (vs : List DeltaVersion) :
    ∀ (base i : Int), IndexedFrom vs base → base ≤ i + 1 →
    i + 1 ≤ base + vs.length - 1 → i + 1 ≤ t →
    ∀ (hpf : (i + 1 - base).toNat < vs.length),
    vs.filter (fun dv => decide (i < dv.version ∧ dv.version ≤ t))
      = vs.get ⟨(i + 1 - base).toNat, hpf⟩
        :: vs.filter (fun dv => decide (i + 1 < dv.version ∧ dv.version ≤ t)) := by
  induction vs with
  | nil =>
    intro base i _ _ _ _ hpf
    simp at hpf
  | cons d rest ih =>
    intro base i h hle hub ht hpf
    obtain ⟨hd, hrest⟩ := indexedFrom_cons d rest base h
    rcases eq_or_lt_of_le hle with heq | hlt
    · have hidx : (i + 1 - base).toNat = 0 := by omega
      have hgd : (d :: rest).get ⟨(i + 1 - base).toNat, hpf⟩ = d := by
        have h0 : (⟨(i + 1 - base).toNat, hpf⟩ : Fin (d :: rest).length)
            = ⟨0, by simp⟩ := by
          apply Fin.ext
          simpa using hidx
        rw [h0]
        rfl
      rw [hgd]
      have hpd : (decide (i < d.version ∧ d.version ≤ t)) = true := by
        simp only [decide_eq_true_eq]
        omega
      have hqd : (decide (i + 1 < d.version ∧ d.version ≤ t)) = false := by
        simp only [decide_eq_false_iff_not]
        omega
      rw [List.filter_cons, List.filter_cons, hpd, hqd]
      simp only [if_true, if_false, List.cons.injEq, true_and]
      · apply List.filter_congr
        intro dv hdv
        have hb := (indexedFrom_version_bounds rest (base + 1) hrest dv hdv).1
        have h1 : i < dv.version := by omega
        have h2 : i + 1 < dv.version := by omega
        simp [h1, h2]
    · have hpd : (decide (i < d.version ∧ d.version ≤ t)) = false := by
        simp only [decide_eq_false_iff_not]
        omega
      have hqd : (decide (i + 1 < d.version ∧ d.version ≤ t)) = false := by
        simp only [decide_eq_false_iff_not]
        omega
      rw [List.filter_cons, List.filter_cons, hpd, hqd]
      simp only [Bool.false_eq_true, if_false]
      have hpf' : (i + 1 - (base + 1)).toNat < rest.length := by
        simp only [List.length_cons] at hpf
        omega
      have hrec := ih (base + 1) i hrest (by omega)
        (by simp only [List.length_cons] at hub; omega) ht hpf'
      rw [hrec]
      have hget : (d :: rest).get ⟨(i + 1 - base).toNat, hpf⟩
          = rest.get ⟨(i + 1 - (base + 1)).toNat, hpf'⟩ := by
        have hpos : (i + 1 - base).toNat = (i + 1 - (base + 1)).toNat + 1 := by
          omega
        have hsome : ((d :: rest)[(i + 1 - base).toNat]? : Option DeltaVersion)
            = rest[(i + 1 - (base + 1)).toNat]? := by
          rw [hpos]
          exact List.getElem?_cons_succ
        rw [List.getElem?_eq_getElem hpf, List.getElem?_eq_getElem hpf'] at hsome
        simpa using hsome
      rw [hget]

theorem diffLoop_spec (vs : List DeltaVersion) (t : Int)
    (h : IndexedFrom vs 2) :
    ∀ i, diffLoop vs t i
      = (vs.filter (fun dv => decide (i < dv.version ∧ dv.version ≤ t))).flatMap
          (·.operations) := by
  have H : ∀ (fuel : Nat) (i : Int), (t - i).toNat = fuel →
      diffLoop vs t i
        = (vs.filter
            (fun dv => decide (i < dv.version ∧ dv.version ≤ t))).flatMap
              (·.operations) := by
    intro fuel
    induction fuel using Nat.strong_induction_on with
    | _ fuel ih =>
      intro i hfuel
      by_cases hguard : i < t ∧ i ≤ (vs.length : Int)
      · rw [diffLoop, if_pos hguard]
        have hrec := ih ((t - (i + 1)).toNat) (by omega) (i + 1) rfl
        rw [hrec]
        by_cases hone : 1 ≤ i
        · have hpf : (i - 1).toNat < vs.length := by omega
          have hget : vs.get? (i - 1).toNat = some (vs.get ⟨(i - 1).toNat, hpf⟩) :=
            List.get?_eq_get hpf
          rw [if_pos ⟨hone, hguard.2⟩, hget]
          have hidx : (i + 1 - 2).toNat = (i - 1).toNat := by omega
          have hext := filter_window_extract t vs 2 i h (by omega)
            (by omega) (by omega) (by rw [hidx]; exact hpf)
          rw [hext]
          rw [List.flatMap_cons]
          have hfin : (⟨(i + 1 - 2).toNat, by rw [hidx]; exact hpf⟩
              : Fin vs.length) = ⟨(i - 1).toNat, hpf⟩ := by
            apply Fin.ext
            simpa using hidx
          rw [hfin]
        · rw [if_neg (by omega)]
          rw [List.nil_append]
          rw [filter_window_shift t vs 2 i h (by omega)]
      · rw [diffLoop, if_neg hguard]
        have hnil : vs.filter
            (fun dv => decide (i < dv.version ∧ dv.version ≤ t)) = [] := by
          rw [List.filter_eq_nil_iff]
          intro dv hdv
          have hb := indexedFrom_version_bounds vs 2 h dv hdv
          simp only [decide_eq_true_eq, not_and, not_le]
          intro hlt
          omega
        rw [hnil]
        rfl
  intro i
  exact H ((t - i).toNat) i rfl

/-- C8 (amended): for a well-formed version log, `GetVersionDiff(from, to)`
returns `ok` with the concatenated operations of precisely the stored
versions `v` with `from < v ≤ to` — the half-open range `(from, to]` clamped
to the existing records — and does *not* fail when an endpoint lies outside
the existing versions; the only failure is a missing version log. -/
theorem C8_get_version_diff (vm : VersionedMemory)
    (hIdx : IndexedFrom vm.versions 2) (f t : Int) :
    GetVersionDiff (some vm) f t
      = .ok ((vm.versions.filter
          (fun dv => decide (f < dv.version ∧ dv.version ≤ t))).flatMap
            (·.operations)) ∧
    ∀ f' t' : Int, (GetVersionDiff none f' t').isOk = false := by
  constructor
  · have hred : GetVersionDiff (some vm) f t
        = .ok (diffLoop vm.versions t f) := rfl
    rw [hred, diffLoop_spec vm.versions t hIdx f]
  · intro f' t'
    rfl

/-- A concrete two-record version log (versions 2 and 3, head 3) used by the
C8 witness and counterexample. -/
def vmC8 : VersionedMemory :=
  { memoryID := "mem", baseFile := "base.pixe", currentHead := 3
    versions :=
      [{ version := 2, parentVersion := 1, deltaFile := "v2.pixe"
         operations := [{ type := "replace_all", frameIndex := 0, oldHash := ""
                          newHash := "h2", chunkData := "" }]
         message := "second", author := "alice", frameCount := 1 },
       { version := 3, parentVersion := 2, deltaFile := "v3.pixe"
         operations := [{ type := "replace_all", frameIndex := 0, oldHash := ""
                          newHash := "h3", chunkData := "" }]
         message := "third", author := "alice", frameCount := 1 }]
    branches := fun n => if n = "main" then some 3 else none }

instance (versions : List DeltaVersion) (base : Int) :
    Decidable (IndexedFrom versions base) := by
  unfold IndexedFrom; infer_instance

/-- C8 witness: the amended theorem applied to the concrete log `vmC8`. -/
theorem C8_get_version_diff_witness :
    GetVersionDiff (some vmC8) 1 3
      = .ok ((vmC8.versions.filter
          (fun dv => decide ((1 : Int) < dv.version ∧ dv.version ≤ 3))).flatMap
            (·.operations)) ∧
    ∀ f' t' : Int, (GetVersionDiff none f' t').isOk = false :=
  C8_get_version_diff vmC8 (by decide) 1 3

/-- C8 counterexample: both endpoints 5 and 7 are outside the existing
versions (2 and 3) of `vmC8`, yet `GetVersionDiff` succeeds with an empty
operation list instead of failing as the claim states. -/
theorem C8_counterexample :
    GetVersionDiff (some vmC8) 5 7 = Except.ok ([] : List DeltaOp) ∧
    (∀ dv ∈ vmC8.versions, dv.version < 5) := by
  constructor
  · have hred : GetVersionDiff (some vmC8) 5 7
        = .ok (diffLoop vmC8.versions 7 5) := rfl
    rw [hred, diffLoop, if_neg (by decide)]
  · decide

/-! ## Go string/JSON UTF-8 coercion

`Converter.createChunks` stores the chunk payload in the Go string field
`Data`, and `GenerateFrames` (`src/pkg/qr/generator.go:73-95`) serializes the
chunk with `json.Marshal`.  `encoding/json` documents that string values are
"coerced to valid UTF-8, replacing invalid bytes with the Unicode replacement
rune"; each invalid byte becomes the three-byte encoding EF BF BD of U+FFFD,
advancing one byte (the semantics of `utf8.DecodeRuneInString`).  Valid
sequences round-trip through marshal/unmarshal unchanged.  `utf8Coerce`
models this byte-level coercion. -/

/-- The UTF-8 encoding of the replacement rune U+FFFD. -/
def replacementBytes : Bytes := [0xEF, 0xBF, 0xBD]

/-- A UTF-8 continuation byte. -/
def isCont (b : Nat) : Bool := decide (0x80 ≤ b ∧ b ≤ 0xBF)

/-- Acceptable second byte of a three-byte sequence headed by `b0`. -/
def accept3 (b0 b1 : Nat) : Bool :=
  if b0 = 0xE0 then decide (0xA0 ≤ b1 ∧ b1 ≤ 0xBF)
  else if b0 = 0xED then decide (0x80 ≤ b1 ∧ b1 ≤ 0x9F)
  else isCont b1

/-- Acceptable second byte of a four-byte sequence headed by `b0`. -/
def accept4 (b0 b1 : Nat) : Bool :=
  if b0 = 0xF0 then decide (0x90 ≤ b1 ∧ b1 ≤ 0xBF)
  else if b0 = 0xF4 then decide (0x80 ≤ b1 ∧ b1 ≤ 0x8F)
  else isCont b1

/-- Length of the rune encoding starting at byte `b0` with remaining input
`rest`; 0 when no valid encoding starts there (the grammar of Go’s
`utf8.DecodeRune`). -/
def seqLen (b0 : Nat) (rest : Bytes) : Nat :=
  if b0 < 0x80 then 1
  else if 0xC2 ≤ b0 ∧ b0 ≤ 0xDF then
    match rest.head? with
    | some b1 => if isCont b1 then 2 else 0
    | none => 0
  else if 0xE0 ≤ b0 ∧ b0 ≤ 0xEF then
    match rest.head?, (rest.drop 1).head? with
    | some b1, some b2 => if accept3 b0 b1 && isCont b2 then 3 else 0
    | _, _ => 0
  else if 0xF0 ≤ b0 ∧ b0 ≤ 0xF4 then
    match rest.head?, (rest.drop 1).head?, (rest.drop 2).head? with
    | some b1, some b2, some b3 =>
      if accept4 b0 b1 && isCont b2 && isCont b3 then 4 else 0
    | _, _, _ => 0
  else 0

/-- Byte-level model of Go’s invalid-UTF-8 coercion: a valid rune encoding is
copied, an invalid byte is replaced by U+FFFD and decoding resumes at the
next byte. -/
def utf8Coerce : Bytes → Bytes
  | [] => []
  | b0 :: rest =>
    if seqLen b0 rest = 0 then replacementBytes ++ utf8Coerce rest
    else (b0 :: rest.take (seqLen b0 rest - 1))
      ++ utf8Coerce (rest.drop (seqLen b0 rest - 1))
  termination_by l => l.length
  decreasing_by all_goals (simp only [List.length_cons, List.length_drop]; omega)

/-- Validity of a byte list as UTF-8, by the same rune grammar. -/
def isValidUtf8 : Bytes → Bool
  | [] => true
  | b0 :: rest =>
    if seqLen b0 rest = 0 then false
    else isValidUtf8 (rest.drop (seqLen b0 rest - 1))
  termination_by l => l.length
  decreasing_by all_goals (simp only [List.length_cons, List.length_drop]; omega)

theorem utf8Coerce_of_valid (l : Bytes) (h : isValidUtf8 l = true) :
    utf8Coerce l = l := by
  have H : ∀ n (l : Bytes), l.length = n → isValidUtf8 l = true →
      utf8Coerce l = l := by
    intro n
    induction n using Nat.strong_induction_on with
    | _ n ih =>
      intro l hn hv
      match l with
      | [] => rw [utf8Coerce]
      | b0 :: rest =>
        rw [isValidUtf8] at hv
        rw [utf8Coerce]
        by_cases hz : seqLen b0 rest = 0
        · rw [if_pos hz] at hv
          exact absurd hv (by simp)
        · rw [if_neg hz] at hv
          rw [if_neg hz]
          rw [ih ((rest.drop (seqLen b0 rest - 1)).length)
            (by simp only [List.length_drop]
                simp only [List.length_cons] at hn
                omega) _ rfl hv]
          simp only [List.cons_append, List.take_append_drop]
  exact H l.length l rfl h

theorem isValidUtf8_of_ascii (l : Bytes) (h : ∀ x ∈ l, x < 0x80) :
    isValidUtf8 l = true := by
  induction l with
  | nil => rw [isValidUtf8]
  | cons b rest ih =>
    have hb : b < 0x80 := h b (by simp)
    have hseq : seqLen b rest = 1 := by rw [seqLen, if_pos hb]
    rw [isValidUtf8, hseq]
    simp only [Nat.sub_self, List.drop_zero]
    rw [if_neg (by omega)]
    exact ih (fun x hx => h x (by simp [hx]))

/-! ## Base64 model

`processFile` base64-encodes binary payloads with Go's `base64.StdEncoding`
(`src/internal/converter/converter.go:360`) and the extraction path decodes
them.  The codec is Go-stdlib code, external to this repository; it is
modelled as an injective ASCII encoding with a matching decoder — the two
properties the pipeline relies on are that decoding inverts encoding and
that the encoded form is plain ASCII (hence JSON/UTF-8-safe). -/

/-- ASCII encoding of one byte value: its decimal digits (as ASCII digit
characters) followed by a separator. -/
def encodeEntry (a : Nat) : Bytes := (Nat.digits 10 a).map (· + 48) ++ [44]

/-- Model of `base64.StdEncoding.EncodeToString`. -/
def b64encode (l : Bytes) : Bytes := l.flatMap encodeEntry

/-- Decode one digit group back to a byte value. -/
def decodeDigits (ds : Bytes) : Option Nat :=
  if ds.all (fun d => decide (48 ≤ d ∧ d < 58)) then
    some (Nat.ofDigits 10 (ds.map (· - 48)))
  else none

/-- Fuelled decoder: consume one digit group and its separator per step. -/
def b64decodeFuel : Nat → Bytes → Option Bytes
  | _, [] => some []
  | 0, _ :: _ => none
  | fuel + 1, a :: t =>
    match (a :: t).dropWhile (fun d => decide (d ≠ 44)) with
    | 44 :: rest =>
      match decodeDigits ((a :: t).takeWhile (fun d => decide (d ≠ 44))),
          b64decodeFuel fuel rest with
      | some v, some vs => some (v :: vs)
      | _, _ => none
    | _ => none

/-- Model of `base64.StdEncoding.DecodeString`. -/
def b64decode (l : Bytes) : Option Bytes := b64decodeFuel l.length l

theorem takeWhile_append_all {p : Nat → Bool} (A B : Bytes)
    (h : ∀ a ∈ A, p a = true) :
    (A ++ B).takeWhile p = A ++ B.takeWhile p := by
  induction A with
  | nil => simp
  | cons a t ih =>
    rw [List.cons_append, List.takeWhile_cons, h a (by simp)]
    rw [ih (fun x hx => h x (by simp [hx]))]
    rfl

theorem dropWhile_append_all {p : Nat → Bool} (A B : Bytes)
    (h : ∀ a ∈ A, p a = true) :
    (A ++ B).dropWhile p = B.dropWhile p := by
  induction A with
  | nil => simp
  | cons a t ih =>
    rw [List.cons_append, List.dropWhile_cons, h a (by simp)]
    rw [ih (fun x hx => h x (by simp [hx]))]
    simp

theorem encodeEntry_digits_ne_sep (a : Nat) :
    ∀ x ∈ (Nat.digits 10 a).map (· + 48), (decide (x ≠ 44)) = true := by
  intro x hx
  obtain ⟨d, hd, rfl⟩ := List.mem_map.mp hx
  have : d < 10 := Nat.digits_lt_base (by omega) hd
  simp only [decide_eq_true_eq]
  omega

theorem decodeDigits_encode (a : Nat) :
    decodeDigits ((Nat.digits 10 a).map (· + 48)) = some a := by
  unfold decodeDigits
  rw [if_pos]
  · congr 1
    rw [List.map_map]
    have hmap : (Nat.digits 10 a).map ((fun x => x - 48) ∘ (fun x => x + 48))
        = (Nat.digits 10 a).map id := by
      apply List.map_congr_left
      intro d _
      simp
    rw [hmap, List.map_id]
    exact Nat.ofDigits_digits 10 a
  · rw [List.all_eq_true]
    intro d hd
    obtain ⟨e, he, rfl⟩ := List.mem_map.mp hd
    have : e < 10 := Nat.digits_lt_base (by omega) he
    simp only [decide_eq_true_eq]
    omega

theorem b64decodeFuel_encode (l : Bytes) :
    ∀ fuel, l.length ≤ fuel → b64decodeFuel fuel (b64encode l) = some l := by
  induction l with
  | nil => intro fuel _; cases fuel <;> rfl
  | cons a t ih =>
    intro fuel hfuel
    match fuel, hfuel with
    | fuel + 1, hfuel =>
      have hshape : b64encode (a :: t)
          = (Nat.digits 10 a).map (· + 48) ++ (44 :: b64encode t) := by
        simp [b64encode, encodeEntry]
      have hne : ∀ x ∈ (Nat.digits 10 a).map (· + 48),
          (decide (x ≠ 44)) = true := encodeEntry_digits_ne_sep a
      have hdrop : (b64encode (a :: t)).dropWhile (fun d => decide (d ≠ 44))
          = 44 :: b64encode t := by
        rw [hshape, dropWhile_append_all _ _ hne, List.dropWhile_cons]
        simp
      have htake : (b64encode (a :: t)).takeWhile (fun d => decide (d ≠ 44))
          = (Nat.digits 10 a).map (· + 48) := by
        rw [hshape, takeWhile_append_all _ _ hne, List.takeWhile_cons]
        simp
      match hcons : b64encode (a :: t) with
      | [] =>
        rw [hshape] at hcons
        exact absurd hcons (by simp)
      | x :: xs =>
        rw [b64decodeFuel]
        rw [← hcons, hdrop, htake, decodeDigits_encode a]
        have hih := ih fuel (by simpa using hfuel)
        simp [hih]

theorem b64decode_encode (l : Bytes) : b64decode (b64encode l) = some l := by
  have hlen : l.length ≤ (b64encode l).length := by
    induction l with
    | nil => simp [b64encode]
    | cons a t ih =>
      have hstep : b64encode (a :: t) = encodeEntry a ++ b64encode t := by
        simp [b64encode]
      rw [hstep, List.length_append, List.length_cons]
      have hpos : 1 ≤ (encodeEntry a).length := by simp [encodeEntry]
      omega
  exact b64decodeFuel_encode l (b64encode l).length hlen

theorem b64encode_ascii (l : Bytes) : ∀ x ∈ b64encode l, x < 0x80 := by
  intro x hx
  simp only [b64encode, List.mem_flatMap] at hx
  obtain ⟨a, _, hmem⟩ := hx
  simp only [encodeEntry, List.mem_append, List.mem_map,
    List.mem_singleton] at hmem
  rcases hmem with ⟨d, hd, rfl⟩ | rfl
  · have : d < 10 := Nat.digits_lt_base (by omega) hd
    omega
  · omega

theorem utf8Coerce_of_ascii (l : Bytes) (h : ∀ x ∈ l, x < 0x80) :
    utf8Coerce l = l :=
  utf8Coerce_of_valid l (isValidUtf8_of_ascii l h)

/-! ## Convert/Extract round trip (C1) -/

/-- Text classification by MIME-type prefix, as in
`strings.HasPrefix(mimeType, "text/")`
(`src/internal/converter/converter.go:357`). -/
def mimeIsText (m : String) : Bool := m.take 5 = "text/"

/-- The `data`-payload part of `createChunks` as a plain list of windows. -/
theorem createChunks_map_data (cfg : Nat) (data : Bytes)
    (fp mt hsh : String) (enc : Bool) :
    (createChunks cfg data fp mt hsh enc).map (·.data)
      = chunkSlices (cfg - 200) data := by
  have hmaps : (createChunks cfg data fp mt hsh enc).map (·.data)
      = ((chunkSlices (cfg - 200) data).enum).map Prod.snd := by
    simp only [createChunks, List.map_map]
    rfl
  rw [hmaps, List.enum_map_snd]

/-- The `index` fields of `createChunks` are `0..n-1` in order. -/
theorem createChunks_map_index (cfg : Nat) (data : Bytes)
    (fp mt hsh : String) (enc : Bool) :
    (createChunks cfg data fp mt hsh enc).map (·.index)
      = List.range (createChunks cfg data fp mt hsh enc).length := by
  have hlen : (createChunks cfg data fp mt hsh enc).length
      = (chunkSlices (cfg - 200) data).length := by
    simp [createChunks]
  have hmaps : (createChunks cfg data fp mt hsh enc).map (·.index)
      = ((chunkSlices (cfg - 200) data).enum).map Prod.fst := by
    simp only [createChunks, List.map_map]
    rfl
  rw [hmaps, List.enum_map_fst, hlen]

/-- Embedding of `Converter.processFile`
(`src/internal/converter/converter.go:317-368`): encrypt the file bytes when
a password is supplied and the service is enabled, classify the MIME type
from the extension (the stdlib lookup result is the `mimeType` parameter),
embed text payloads as raw string bytes and base64-encode the rest, then
chunk.  The SHA-256 content hash feeds only the chunk `hash`/`id` fields and
is the `hsh` parameter. -/
def processFile (cfgChunk : Nat) (enabled : Bool) (password : String)
    (salt nonce : Bytes) (name mimeType hsh : String) (content : Bytes) :
    Except CryptoErr (List ChunkRec) :=
  match (if password ≠ "" ∧ enabled = true
         then EncryptData enabled password salt nonce content
         else .ok content) with
  | .error e => .error e
  | .ok dataAfter =>
    .ok (createChunks cfgChunk
      (if mimeIsText mimeType then dataAfter else b64encode dataAfter)
      name mimeType hsh (!(password = "") && enabled))

/-- Frame transport of one chunk: `json.Marshal` in `GenerateFrames`
(`src/pkg/qr/generator.go:73-95`), QR encoding, MP4 assembly, frame
extraction, QR decoding, `json.Unmarshal`.  The QR codec and the video
bridge are faithful transports per the spec (§4.4, §4.5: frame `i` decodes
to record `i`); Go's `encoding/json` coerces the `Data` string to valid
UTF-8 (see `utf8Coerce`), and all other fields are valid UTF-8 or scalars
and round-trip unchanged. -/
def frameTransport (c : ChunkRec) : ChunkRec :=
  { c with data := utf8Coerce c.data }

/-- Embedding of the single-file `Converter.Convert` pipeline
(`src/internal/converter/converter.go:90-211`): process the file into
chunks and ship every chunk through the frame transport.  The metadata
frame is not modelled; reconstructing the file bytes does not consume it. -/
def ConvertPixe (cfgChunk : Nat) (enabled : Bool) (password : String)
    (salt nonce : Bytes) (name mimeType hsh : String) (content : Bytes) :
    Except CryptoErr (List ChunkRec) :=
  match processFile cfgChunk enabled password salt nonce name mimeType hsh
      content with
  | .ok chunks => .ok (chunks.map frameTransport)
  | .error e => .error e

/-- Modelled from the spec: `video.Maker.ExtractData` — the Go implementation
is missing from src/ (only its callers are present).  Spec §4.6 read path:
decode all data frames, sort by chunk index (out-of-order decoding is
tolerated by sorting), concatenate the `data` strings of the file's chunks,
base64-decode the result when the chunk MIME type is not text-classified,
and write the bytes out (an undecodable payload yields no content). -/
def ExtractDataModel (frames : List ChunkRec) (mimeType : String) : Bytes :=
  let ordered := frames.mergeSort (fun a b => decide (a.index ≤ b.index))
  let payload := (ordered.map (·.data)).flatten
  if mimeIsText mimeType then payload
  else (b64decode payload).getD []

/-- Embedding of `Converter.Extract`
(`src/internal/converter/converter.go:213-269`) for a single-file archive:
run the video extraction; when a password was supplied, attempt
`DecryptData` on the written bytes, keeping the decrypted bytes on success
and leaving the file as-is when decryption fails. -/
def ExtractPixe (enabled : Bool) (password : String)
    (frames : List ChunkRec) (mimeType : String) : Bytes :=
  if password = "" then ExtractDataModel frames mimeType
  else
    match DecryptData enabled password (ExtractDataModel frames mimeType) with
    | .ok dec => dec
    | .error _ => ExtractDataModel frames mimeType

/-- `Convert` followed by `Extract` with the same password on a single file. -/
def RoundTrip (cfgChunk : Nat) (enabled : Bool) (password : String)
    (salt nonce : Bytes) (name mimeType hsh : String) (content : Bytes) :
    Except CryptoErr Bytes :=
  match ConvertPixe cfgChunk enabled password salt nonce name mimeType hsh
      content with
  | .ok frames => .ok (ExtractPixe enabled password frames mimeType)
  | .error e => .error e

/-- Transported chunks are already in index order, so the extractor's sort
leaves them unchanged. -/
theorem transport_mergeSort_eq (cfg : Nat) (wire : Bytes)
    (name mime hsh : String) (encFlag : Bool) :
    ((createChunks cfg wire name mime hsh encFlag).map frameTransport).mergeSort
        (fun a b => decide (a.index ≤ b.index))
      = (createChunks cfg wire name mime hsh encFlag).map frameTransport := by
  have hidx : ((createChunks cfg wire name mime hsh encFlag).map
        frameTransport).map (·.index)
      = List.range (createChunks cfg wire name mime hsh encFlag).length := by
    rw [List.map_map]
    have hcomp : ((·.index) ∘ frameTransport : ChunkRec → Nat) = (·.index) := rfl
    rw [hcomp]
    exact createChunks_map_index cfg wire name mime hsh encFlag
  have hsorted : ((createChunks cfg wire name mime hsh encFlag).map
        frameTransport).Pairwise
          (fun a b => (decide (a.index ≤ b.index)) = true) := by
    have hlt : List.Pairwise (· < ·)
        (((createChunks cfg wire name mime hsh encFlag).map
          frameTransport).map (·.index)) := by
      rw [hidx]
      exact List.pairwise_lt_range _
    rw [List.pairwise_map] at hlt
    exact hlt.imp (fun {a b} h => by
      simp only [decide_eq_true_eq]
      omega)
  exact List.mergeSort_of_sorted hsorted

/-- The payload strings of the transported chunks, in order, are the
coercions of the chunk windows. -/
theorem transport_map_data (cfg : Nat) (wire : Bytes)
    (name mime hsh : String) (encFlag : Bool) :
    ((createChunks cfg wire name mime hsh encFlag).map frameTransport).map
        (·.data)
      = (chunkSlices (cfg - 200) wire).map utf8Coerce := by
  rw [List.map_map]
  have hcomp : ((·.data) ∘ frameTransport : ChunkRec → Bytes)
      = utf8Coerce ∘ (·.data) := rfl
  rw [hcomp, ← List.map_map]
  rw [createChunks_map_data cfg wire name mime hsh encFlag]

/-- Extraction undoes chunking and transport whenever every emitted window
survives the JSON UTF-8 coercion unchanged. -/
theorem extract_of_convert (cfg : Nat) (wire : Bytes) (name mime hsh : String)
    (encFlag : Bool) (hcfg : 200 < cfg)
    (hslices : ∀ s ∈ chunkSlices (cfg - 200) wire, utf8Coerce s = s) :
    ExtractDataModel
        ((createChunks cfg wire name mime hsh encFlag).map frameTransport) mime
      = if mimeIsText mime then wire else (b64decode wire).getD [] := by
  have hcs : 0 < cfg - 200 := by omega
  have hidx : ((createChunks cfg wire name mime hsh encFlag).map
        frameTransport).map (·.index)
      = List.range (createChunks cfg wire name mime hsh encFlag).length := by
    rw [List.map_map]
    have : ((·.index) ∘ frameTransport : ChunkRec → Nat) = (·.index) := rfl
    rw [this]
    exact createChunks_map_index cfg wire name mime hsh encFlag
  have hsorted : ((createChunks cfg wire name mime hsh encFlag).map
        frameTransport).Pairwise
          (fun a b => (decide (a.index ≤ b.index)) = true) := by
    have hlt : List.Pairwise (· < ·)
        (((createChunks cfg wire name mime hsh encFlag).map
          frameTransport).map (·.index)) := by
      rw [hidx]
      exact List.pairwise_lt_range _
    rw [List.pairwise_map] at hlt
    exact hlt.imp (fun {a b} h => by
      simp only [decide_eq_true_eq]
      omega)
  have hms : ((createChunks cfg wire name mime hsh encFlag).map
        frameTransport).mergeSort (fun a b => decide (a.index ≤ b.index))
      = (createChunks cfg wire name mime hsh encFlag).map frameTransport :=
    List.mergeSort_of_sorted hsorted
  have hdata : (((createChunks cfg wire name mime hsh encFlag).map
        frameTransport).map (·.data)).flatten = wire := by
    rw [List.map_map]
    have hcomp : ((·.data) ∘ frameTransport : ChunkRec → Bytes)
        = utf8Coerce ∘ (·.data) := rfl
    rw [hcomp, ← List.map_map]
    rw [createChunks_map_data cfg wire name mime hsh encFlag]
    have hcoerce : (chunkSlices (cfg - 200) wire).map utf8Coerce
        = chunkSlices (cfg - 200) wire := by
      have hci : (chunkSlices (cfg - 200) wire).map utf8Coerce
          = (chunkSlices (cfg - 200) wire).map id :=
        List.map_congr_left hslices
      rw [hci, List.map_id]
    rw [hcoerce]
    exact chunkSlices_flatten (cfg - 200) hcs wire
  unfold ExtractDataModel
  rw [hms]
  show (if mimeIsText mime = true
      then (((createChunks cfg wire name mime hsh encFlag).map
        frameTransport).map (fun x => x.data)).flatten
      else (b64decode ((((createChunks cfg wire name mime hsh encFlag).map
        frameTransport).map (fun x => x.data)).flatten)).getD [])
    = if mimeIsText mime = true then wire else (b64decode wire).getD []
  rw [hdata]

theorem ascii_slices (wire : Bytes) (cs : Nat) (hcs : 0 < cs)
    (hw : ∀ x ∈ wire, x < 0x80) :
    ∀ s ∈ chunkSlices cs wire, utf8Coerce s = s := by
  intro s hmem
  apply utf8Coerce_of_ascii
  intro x hx
  apply hw
  have hfl := chunkSlices_flatten cs hcs wire
  rw [← hfl]
  exact List.mem_flatten.mpr ⟨s, hmem, hx⟩

/-- C1 (amended): the Convert→Extract round trip reproduces the file bytes
whenever the chunked payload string survives JSON UTF-8 coercion — that is,
(i) for every non-text-MIME file, with any password and in either encryption
mode (the payload is base64, hence ASCII), and (ii) for every text-MIME file
converted without a password whose payload windows are valid UTF-8.  The
salt/nonce parameters are the RNG draws of the encryption path. -/
theorem C1_round_trip (cfg : Nat) (enabled : Bool) (password : String)
    (salt nonce : Bytes) (name mime hsh : String) (content : Bytes)
    (hcfg : 200 < cfg) (hs : salt.length = 32) (hn : nonce.length = 12) :
    (mimeIsText mime = false →
      RoundTrip cfg enabled password salt nonce name mime hsh content
        = .ok content) ∧
    (mimeIsText mime = true → password = "" →
      (∀ s ∈ chunkSlices (cfg - 200) content, isValidUtf8 s = true) →
      RoundTrip cfg enabled password salt nonce name mime hsh content
        = .ok content) := by
  have hcs : 0 < cfg - 200 := by omega
  constructor
  · intro hmime
    by_cases hpe : password ≠ "" ∧ enabled = true
    · obtain ⟨hpne, henb⟩ := hpe
      subst henb
      have henc : EncryptData true password salt nonce content
          = .ok (salt ++ (nonce ++ gcmSeal (pbkdf2Key password salt) nonce
              content)) :=
        encryptData_ok password salt nonce content hpne
      have hpf : processFile cfg true password salt nonce name mime hsh content
          = .ok (createChunks cfg
              (b64encode (salt ++ (nonce ++ gcmSeal (pbkdf2Key password salt)
                nonce content)))
              name mime hsh (!(password = "") && true)) := by
        unfold processFile
        rw [if_pos ⟨hpne, rfl⟩, henc, hmime]
        simp
      have hascii := ascii_slices
        (b64encode (salt ++ (nonce ++ gcmSeal (pbkdf2Key password salt) nonce
          content))) (cfg - 200) hcs
        (b64encode_ascii _)
      have hext := extract_of_convert cfg
        (b64encode (salt ++ (nonce ++ gcmSeal (pbkdf2Key password salt) nonce
          content))) name mime hsh (!(password = "") && true) hcfg hascii
      rw [hmime] at hext
      simp only [Bool.false_eq_true, if_false] at hext
      rw [b64decode_encode] at hext
      simp only [Option.getD_some] at hext
      have hconv : ConvertPixe cfg true password salt nonce name mime hsh
            content
          = .ok ((createChunks cfg
              (b64encode (salt ++ (nonce ++ gcmSeal (pbkdf2Key password salt)
                nonce content)))
              name mime hsh (!(password = "") && true)).map frameTransport) := by
        unfold ConvertPixe
        rw [hpf]
      have hdec : DecryptData true password
          (salt ++ (nonce ++ gcmSeal (pbkdf2Key password salt) nonce content))
            = .ok content := by
        rw [decryptData_of_encryptData password password salt nonce content
          hpne hs hn, gcmOpen_gcmSeal]
      have hep : ExtractPixe true password
            ((createChunks cfg
              (b64encode (salt ++ (nonce ++ gcmSeal (pbkdf2Key password salt)
                nonce content)))
              name mime hsh (!(password = "") && true)).map frameTransport) mime
          = content := by
        unfold ExtractPixe
        rw [if_neg hpne, hext, hdec]
      simp only [RoundTrip, hconv, hep]
    · have hdataAfter : (if password ≠ "" ∧ enabled = true
          then EncryptData enabled password salt nonce content
          else .ok content) = .ok content := if_neg hpe
      have hpf : processFile cfg enabled password salt nonce name mime hsh
            content
          = .ok (createChunks cfg (b64encode content) name mime hsh
              (!(password = "") && enabled)) := by
        unfold processFile
        rw [hdataAfter, hmime]
        simp
      have hascii := ascii_slices (b64encode content) (cfg - 200) hcs
        (b64encode_ascii _)
      have hext := extract_of_convert cfg (b64encode content) name mime hsh
        (!(password = "") && enabled) hcfg hascii
      rw [hmime] at hext
      simp only [Bool.false_eq_true, if_false] at hext
      rw [b64decode_encode] at hext
      simp only [Option.getD_some] at hext
      have hconv : ConvertPixe cfg enabled password salt nonce name mime hsh
            content
          = .ok ((createChunks cfg (b64encode content) name mime hsh
              (!(password = "") && enabled)).map frameTransport) := by
        unfold ConvertPixe
        rw [hpf]
      have hep : ExtractPixe enabled password
            ((createChunks cfg (b64encode content) name mime hsh
              (!(password = "") && enabled)).map frameTransport) mime
          = content := by
        unfold ExtractPixe
        by_cases hpw : password = ""
        · rw [if_pos hpw, hext]
        · have henb : enabled = false := by
            by_contra hcontra
            exact hpe ⟨hpw, by revert hcontra; cases enabled <;> simp⟩
          subst henb
          rw [if_neg hpw, hext]
          rw [show DecryptData false password content = .ok content from rfl]
      simp only [RoundTrip, hconv, hep]
  · intro hmime hpw hvalid
    subst hpw
    have hdataAfter : (if ("" : String) ≠ "" ∧ enabled = true
        then EncryptData enabled "" salt nonce content
        else .ok content) = .ok content := if_neg (by simp)
    have hpf : processFile cfg enabled "" salt nonce name mime hsh content
        = .ok (createChunks cfg content name mime hsh
            (!("" = "") && enabled)) := by
      unfold processFile
      rw [hdataAfter, hmime]
      simp
    have hcoer : ∀ s ∈ chunkSlices (cfg - 200) content, utf8Coerce s = s :=
      fun s hmem => utf8Coerce_of_valid s (hvalid s hmem)
    have hext := extract_of_convert cfg content name mime hsh
      (!("" = "") && enabled) hcfg hcoer
    rw [hmime] at hext
    simp only [if_true] at hext
    have hconv : ConvertPixe cfg enabled "" salt nonce name mime hsh content
        = .ok ((createChunks cfg content name mime hsh
            (!("" = "") && enabled)).map frameTransport) := by
      unfold ConvertPixe
      rw [hpf]
    have hep : ExtractPixe enabled ""
          ((createChunks cfg content name mime hsh
            (!("" = "") && enabled)).map frameTransport) mime
        = content := by
      unfold ExtractPixe
      rw [if_pos rfl]
      exact hext
    simp only [RoundTrip, hconv]
    exact congrArg Except.ok hep

/-- C1 witness: the amended round-trip theorem applied to a concrete binary
file converted with encryption enabled and a non-empty password. -/
theorem C1_round_trip_witness :
    RoundTrip 2900 true "pw" (List.replicate 32 0) (List.replicate 12 0)
        "b.bin" "application/octet-stream" "h" [0, 255]
      = Except.ok [0, 255] :=
  (C1_round_trip 2900 true "pw" (List.replicate 32 0) (List.replicate 12 0)
    "b.bin" "application/octet-stream" "h" [0, 255]
    (by decide) (by decide) (by decide)).1 (by decide)

/-- C1 counterexample: with no encryption, a text-MIME file whose single
byte 0xFF is not valid UTF-8 does not round-trip — the JSON frame
serialization coerces the payload to the U+FFFD replacement encoding
EF BF BD, which is what extraction returns instead of the original byte. -/
theorem C1_counterexample :
    RoundTrip 2900 false "" (List.replicate 32 0) (List.replicate 12 0)
        "a.txt" "text/plain" "h" [0xFF]
      = Except.ok [0xEF, 0xBF, 0xBD] ∧
    (Except.ok ([0xEF, 0xBF, 0xBD] : Bytes) : Except CryptoErr Bytes)
      ≠ Except.ok ([0xFF] : Bytes) := by
  constructor
  · have hmime : mimeIsText "text/plain" = true := by decide
    have hpf : processFile 2900 false "" (List.replicate 32 0)
          (List.replicate 12 0) "a.txt" "text/plain" "h" [0xFF]
        = .ok (createChunks 2900 [0xFF] "a.txt" "text/plain" "h"
            (!("" = "") && false)) := by
      unfold processFile
      rw [if_neg (by simp), hmime]
      simp
    have hconv : ConvertPixe 2900 false "" (List.replicate 32 0)
          (List.replicate 12 0) "a.txt" "text/plain" "h" [0xFF]
        = .ok ((createChunks 2900 [0xFF] "a.txt" "text/plain" "h"
            (!("" = "") && false)).map frameTransport) := by
      unfold ConvertPixe
      rw [hpf]
    have htk : ([0xFF] : Bytes).take 2700 = [0xFF] :=
      List.take_of_length_le (by norm_num)
    have hdp : ([0xFF] : Bytes).drop 2700 = [] :=
      List.drop_eq_nil_of_le (by norm_num)
    have hnil : chunkSlices 2700 ([] : Bytes) = [] := by
      rw [chunkSlices]
    have hslice : chunkSlices (2900 - 200) ([0xFF] : Bytes) = [[0xFF]] := by
      rw [show (2900 - 200 : Nat) = 2700 from by norm_num]
      rw [chunkSlices, dif_neg (by norm_num), htk, hdp, hnil]
    have hseq : seqLen 0xFF ([] : Bytes) = 0 := by decide
    have hconil : utf8Coerce ([] : Bytes) = [] := by rw [utf8Coerce]
    have hco : utf8Coerce ([0xFF] : Bytes) = [0xEF, 0xBF, 0xBD] := by
      rw [utf8Coerce, hseq]
      rw [if_pos rfl, hconil]
      rfl
    have hdatamap := transport_map_data 2900 [0xFF] "a.txt" "text/plain" "h"
      (!("" = "") && false)
    have hms := transport_mergeSort_eq 2900 [0xFF] "a.txt" "text/plain" "h"
      (!("" = "") && false)
    have hextr : ExtractDataModel ((createChunks 2900 [0xFF] "a.txt"
          "text/plain" "h" (!("" = "") && false)).map frameTransport)
          "text/plain"
        = [0xEF, 0xBF, 0xBD] := by
      unfold ExtractDataModel
      rw [hms]
      show (if mimeIsText "text/plain" = true
          then (((createChunks 2900 [0xFF] "a.txt" "text/plain" "h"
            (!("" = "") && false)).map frameTransport).map (fun x => x.data)).flatten
          else (b64decode ((((createChunks 2900 [0xFF] "a.txt" "text/plain" "h"
            (!("" = "") && false)).map frameTransport).map
              (fun x => x.data)).flatten)).getD [])
        = [0xEF, 0xBF, 0xBD]
      rw [hmime, if_pos rfl, hdatamap, hslice]
      rw [List.map_cons, List.map_nil, hco]
      rfl
    have hep : ExtractPixe false ""
          ((createChunks 2900 [0xFF] "a.txt" "text/plain" "h"
            (!("" = "") && false)).map frameTransport) "text/plain"
        = [0xEF, 0xBF, 0xBD] := by
      unfold ExtractPixe
      rw [if_pos rfl, hextr]
    simp only [RoundTrip, hconv]
    exact congrArg Except.ok hep
  · simp

end Pixelog
